import Mathlib

/-!
Shallow embedding of `segmentio/agecache`, an LRU cache with time-based
expiration and randomized expiration jitter.

Modelling conventions, fixed once for the whole file:

* Go `time.Time` instants and `time.Duration` values are both `Int`
  (nanoseconds); `time.Since(t)` at instant `now` is `now - t`.
* The Go cache stores a `map[interface{}]*list.Element` (`items`) plus a
  doubly-linked `evictionList` whose elements point at `cacheEntry` values.
  The pair is represented by a single `List (Entry K V)`, most-recently-used
  first; the map lookup `cache.items[key]` is `entries.find?` on the key,
  and `deleteElement` (list removal plus map deletion keyed by the entry's
  key) is `List.eraseP` on the key.  Qualitative map/list consistency is
  itself proved as the reachable-state invariant (key-uniqueness plus the
  capacity bound).
* The injectable random generator (`RandGenerator.Intn`) is modelled by
  passing the drawn value `r` into the operations that consume one draw;
  Go's `rand.Intn(n)` contract is the hypothesis `0 ≤ r < n` where needed.
* User callbacks `onEviction` / `onExpiration` are modelled by presence
  flags plus an explicit list of callback-invocation events returned by
  each mutating operation (`cache.onEviction != nil` guards become checks
  of the flag).
* Go `panic` during construction is `Option.none`; a returned `error` is
  the `Option String` component of the result.
* Iteration order of the Go `items` map (in `Keys` and hence in the sweep
  of `deleteExpired`) is arbitrary; the model fixes it to the recency
  order.  No claim below depends on the order of that enumeration.
-/

set_option linter.unusedVariables false
set_option linter.unusedSectionVars false

namespace Agecache

/-- `cacheEntry`: the value each `list.Element` points at.  `timestamp` is
the (jitter-adjusted) creation/refresh instant in nanoseconds. -/
structure Entry (K V : Type) where
  key : K
  value : V
  timestamp : Int
  deriving DecidableEq, Repr

/-- A callback invocation: `onEviction key value` or `onExpiration key value`. -/
inductive Event (K V : Type) where
  | evict (key : K) (value : V)
  | expire (key : K) (value : V)
  deriving DecidableEq, Repr

/-- `ExpirationType` enumerates expiration types. -/
inductive ExpirationType where
  | passive
  | active
  deriving DecidableEq, Repr

/-- `Config` configures the cache.  Callback fields are presence flags. -/
structure Config where
  capacity : Int
  maxAge : Int
  minAge : Int
  expirationType : ExpirationType
  expirationInterval : Int
  onEvictionSet : Bool
  onExpirationSet : Bool
  deriving DecidableEq, Repr

/-- The `Cache` struct.  `entries` is the eviction list, most-recently-used
first (`list.PushFront` side); the `items` map is derived from it. -/
structure Cache (K V : Type) where
  capacity : Int
  minAge : Int
  maxAge : Int
  expirationType : ExpirationType
  expirationInterval : Int
  onEvictionSet : Bool
  onExpirationSet : Bool
  sets : Int
  gets : Int
  hits : Int
  misses : Int
  evictions : Int
  entries : List (Entry K V)
  deriving DecidableEq, Repr

/-- `Stats` snapshot. -/
structure Stats where
  capacity : Int
  count : Int
  sets : Int
  gets : Int
  hits : Int
  misses : Int
  evictions : Int
  deriving DecidableEq, Repr

/-- `Stats.Delta`: counters as differences since `previous`, gauges carried
through. -/
def Stats.Delta (stats previous : Stats) : Stats :=
  { capacity := stats.capacity
    count := stats.count
    sets := stats.sets - previous.sets
    gets := stats.gets - previous.gets
    hits := stats.hits - previous.hits
    misses := stats.misses - previous.misses
    evictions := stats.evictions - previous.evictions }

variable {K V : Type} [DecidableEq K] [DecidableEq V]

/-- The Bool-valued key test used for the `items` map lookup. -/
def Entry.hasKey (e : Entry K V) (k : K) : Bool := decide (e.key = k)

/-- `New`: validation and construction.  A Go `panic` is `none`.  The four
guards are transcribed in source order; `minAge` defaults to `maxAge` when
zero, `expirationInterval` defaults to `maxAge` when non-positive. -/
def New (K V : Type) (config : Config) : Option (Cache K V) :=
  if config.capacity ≤ 0 then none
  else if config.maxAge < 0 then none
  else if config.minAge < 0 then none
  else if config.minAge > 0 ∧ config.minAge > config.maxAge then none
  else some
    { capacity := config.capacity
      maxAge := config.maxAge
      minAge := if config.minAge = 0 then config.maxAge else config.minAge
      expirationType := config.expirationType
      expirationInterval :=
        if config.expirationInterval ≤ 0 then config.maxAge
        else config.expirationInterval
      onEvictionSet := config.onEvictionSet
      onExpirationSet := config.onExpirationSet
      sets := 0, gets := 0, hits := 0, misses := 0, evictions := 0
      entries := [] }

/-- `getTimestamp`: `time.Now()` plus the jitter draw.  `now` is the current
instant, `r` the value returned by `rand.Intn(maxAge - minAge)` (consumed
only when `minAge ≠ maxAge`). -/
def Cache.getTimestamp (c : Cache K V) (now r : Int) : Int :=
  if c.minAge = c.maxAge then now else now + r

/-- `deleteElement`: remove the element from the eviction list and delete
its key from the `items` map. -/
def Cache.deleteElement (c : Cache K V) (e : Entry K V) : Cache K V :=
  { c with entries := c.entries.eraseP (fun x => x.hasKey e.key) }

/-- `evictOldest` (private): remove the back (least-recently-used) element,
incrementing `evictions` and invoking any eviction callback. -/
def Cache.evictOldest (c : Cache K V) : Cache K V × Bool × List (Event K V) :=
  match c.entries.getLast? with
  | none => (c, false, [])
  | some entry =>
      ({ c with evictions := c.evictions + 1, entries := c.entries.dropLast },
       true,
       if c.onEvictionSet then [.evict entry.key entry.value] else [])

/-- `Set(key, value)`: update a key:value pair; the returned Bool reports
whether an eviction occurred.  `now` is the instant of the call and `r` the
jitter draw. -/
def Cache.Set (c : Cache K V) (key : K) (value : V) (now r : Int) :
    Cache K V × Bool × List (Event K V) :=
  let c₁ : Cache K V := { c with sets := c.sets + 1 }
  let timestamp := c₁.getTimestamp now r
  match c₁.entries.find? (fun e => e.hasKey key) with
  | some _ =>
      -- MoveToFront plus in-place update of the found entry's fields
      ({ c₁ with entries :=
          ⟨key, value, timestamp⟩ :: c₁.entries.eraseP (fun e => e.hasKey key) },
       false, [])
  | none =>
      let c₂ : Cache K V :=
        { c₁ with entries := ⟨key, value, timestamp⟩ :: c₁.entries }
      if (c₂.entries.length : Int) > c₂.capacity then
        let (c₃, _, events) := c₂.evictOldest
        (c₃, true, events)
      else
        (c₂, false, [])

/-- The freshness test shared by `Get`, `Has` and `Peek`:
`maxAge == 0 || time.Since(entry.timestamp) <= maxAge`. -/
def Cache.isFresh (c : Cache K V) (e : Entry K V) (now : Int) : Bool :=
  decide (c.maxAge = 0 ∨ now - e.timestamp ≤ c.maxAge)

/-- `Get(key)`: returns the stored value when present and fresh (bumping
recency and `hits`); deletes an expired entry, invoking the expiration
callback; counts one `gets` and, on any not-found path, one `misses`. -/
def Cache.Get (c : Cache K V) (key : K) (now : Int) :
    Cache K V × Option V × List (Event K V) :=
  let c₁ : Cache K V := { c with gets := c.gets + 1 }
  match c₁.entries.find? (fun e => e.hasKey key) with
  | some entry =>
      if c₁.isFresh entry now then
        ({ c₁ with
            entries := entry :: c₁.entries.eraseP (fun e => e.hasKey key),
            hits := c₁.hits + 1 },
         some entry.value, [])
      else
        -- Entry expired
        ({ (c₁.deleteElement entry) with misses := c₁.misses + 1 },
         none,
         if c₁.onExpirationSet then [.expire entry.key entry.value] else [])
  | none =>
      ({ c₁ with misses := c₁.misses + 1 }, none, [])

/-- `Has(key)`: presence-and-freshness test under the read lock; the code
only reads, so the embedding is a pure function of the state. -/
def Cache.Has (c : Cache K V) (key : K) (now : Int) : Bool :=
  match c.entries.find? (fun e => e.hasKey key) with
  | some entry => c.isFresh entry now
  | none => false

/-- `Peek(key)`: like `Get` without recency/stats mutation or deletion;
read-only, hence a pure function of the state. -/
def Cache.Peek (c : Cache K V) (key : K) (now : Int) : Option V :=
  match c.entries.find? (fun e => e.hasKey key) with
  | some entry => if c.isFresh entry now then some entry.value else none
  | none => none

/-- `Remove(key)`: unconditional deletion; the Bool reports prior
existence.  Its only callee is `deleteElement`, which invokes no callback,
so the event list is empty on both paths. -/
def Cache.Remove (c : Cache K V) (key : K) :
    Cache K V × Bool × List (Event K V) :=
  match c.entries.find? (fun e => e.hasKey key) with
  | some entry => (c.deleteElement entry, true, [])
  | none => (c, false, [])

/-- `EvictOldest` (public): force-remove the least-recently-used entry. -/
def Cache.EvictOldest (c : Cache K V) : Cache K V × Bool × List (Event K V) :=
  c.evictOldest

/-- `Len()`: number of items. -/
def Cache.Len (c : Cache K V) : Int := c.entries.length

/-- `Clear()`: delete every element and re-initialise the eviction list.
The loop's net effect is an empty store; counters are not touched and no
callback is reachable from `deleteElement`. -/
def Cache.Clear (c : Cache K V) : Cache K V × List (Event K V) :=
  ({ c with entries := [] }, [])

/-- `Keys()`: all keys (Go map order is arbitrary; fixed here to recency
order). -/
def Cache.Keys (c : Cache K V) : List K := c.entries.map (·.key)

/-- `OrderedKeys()`: keys from oldest (list back) to newest (list front). -/
def Cache.OrderedKeys (c : Cache K V) : List K := c.entries.reverse.map (·.key)

/-- `SetMaxAge`: validated runtime reconfiguration; an error leaves the
receiver untouched. -/
def Cache.SetMaxAge (c : Cache K V) (maxAge : Int) : Cache K V × Option String :=
  if maxAge < 0 then
    (c, some "Must supply a zero or positive maxAge")
  else if maxAge < c.minAge then
    (c, some "Must supply a maxAge greater than or equal to minAge")
  else
    ({ c with maxAge := maxAge }, none)

/-- `SetMinAge`: validated runtime reconfiguration; zero restores the
default `minAge = maxAge`; an error leaves the receiver untouched. -/
def Cache.SetMinAge (c : Cache K V) (minAge : Int) : Cache K V × Option String :=
  if minAge < 0 then
    (c, some "Must supply a zero or positive minAge")
  else if minAge > c.maxAge then
    (c, some "Must supply a minAge lesser than or equal to maxAge")
  else if minAge = 0 then
    ({ c with minAge := c.maxAge }, none)
  else
    ({ c with minAge := minAge }, none)

/-- `OnEviction(callback)`: replace the eviction callback (flag model). -/
def Cache.OnEviction (c : Cache K V) (callbackSet : Bool) : Cache K V :=
  { c with onEvictionSet := callbackSet }

/-- `OnExpiration(callback)`: replace the expiration callback (flag model). -/
def Cache.OnExpiration (c : Cache K V) (callbackSet : Bool) : Cache K V :=
  { c with onExpirationSet := callbackSet }

/-- `Stats()`: snapshot of the counters plus the two gauges. -/
def Cache.Stats (c : Cache K V) : Stats :=
  { capacity := c.capacity
    count := (c.entries.length : Int)
    sets := c.sets
    gets := c.gets
    hits := c.hits
    misses := c.misses
    evictions := c.evictions }

/-- The staleness test of the reaper: `maxAge > 0 && time.Since(ts) > maxAge`. -/
def Cache.expiredAt (c : Cache K V) (e : Entry K V) (now : Int) : Bool :=
  decide (c.maxAge > 0 ∧ now - e.timestamp > c.maxAge)

/-- One iteration of the `deleteExpired` loop body: re-check the key under
the lock, delete and invoke the expiration callback when found stale. -/
def Cache.deleteExpiredStep (c : Cache K V) (now : Int) (key : K) :
    Cache K V × List (Event K V) :=
  match c.entries.find? (fun e => e.hasKey key) with
  | some entry =>
      if c.expiredAt entry now then
        (c.deleteElement entry,
         if c.onExpirationSet then [.expire entry.key entry.value] else [])
      else (c, [])
  | none => (c, [])

/-- The `deleteExpired` loop over the key snapshot. -/
def deleteExpiredLoop (now : Int) :
    Cache K V → List K → Cache K V × List (Event K V)
  | c, [] => (c, [])
  | c, k :: ks =>
      let step := c.deleteExpiredStep now k
      let rest := deleteExpiredLoop now step.1 ks
      (rest.1, step.2 ++ rest.2)

/-- `deleteExpired`: one sweep of the active reaper, over a snapshot of the
current keys. -/
def Cache.deleteExpired (c : Cache K V) (now : Int) :
    Cache K V × List (Event K V) :=
  deleteExpiredLoop now c c.Keys

/-- A public operation, for sequencing claims about reachable states.  The
read-only operations (`Has`, `Peek`, `Len`, `Keys`, `OrderedKeys`, `Stats`)
take the read lock only and return no new state. -/
inductive Op (K V : Type) where
  | set (key : K) (value : V) (now r : Int)
  | get (key : K) (now : Int)
  | remove (key : K)
  | evictOldest
  | clear
  | setMaxAge (d : Int)
  | setMinAge (d : Int)
  | onEviction (callbackSet : Bool)
  | onExpiration (callbackSet : Bool)
  | deleteExpired (now : Int)

/-- State transition of one public operation. -/
def applyOp (c : Cache K V) : Op K V → Cache K V
  | .set k v now r => (c.Set k v now r).1
  | .get k now => (c.Get k now).1
  | .remove k => (c.Remove k).1
  | .evictOldest => c.EvictOldest.1
  | .clear => c.Clear.1
  | .setMaxAge d => (c.SetMaxAge d).1
  | .setMinAge d => (c.SetMinAge d).1
  | .onEviction b => c.OnEviction b
  | .onExpiration b => c.OnExpiration b
  | .deleteExpired now => (c.deleteExpired now).1

/-- Run a sequence of public operations. -/
def run (c : Cache K V) (ops : List (Op K V)) : Cache K V :=
  ops.foldl applyOp c

/-- Map/list consistency: each key occupies exactly one live position of
the recency order, so `|items| = |evictionList|`. -/
def keysNodup (c : Cache K V) : Prop :=
  (c.entries.map (·.key)).Nodup

/-- The store invariant: positive capacity (established at construction,
never changed afterwards), key-uniqueness, and the capacity bound. -/
def Inv (c : Cache K V) : Prop :=
  0 < c.capacity ∧ keysNodup c ∧ (c.entries.length : Int) ≤ c.capacity

/-! ### List helper lemmas -/

theorem find?_append_of_none {α : Type} {p : α → Bool} {l₁ l₂ : List α}
    (h : l₁.find? p = none) : (l₁ ++ l₂).find? p = l₂.find? p := by
  rw [List.find?_append, h, Option.none_or]

theorem eraseP_append_of_none {α : Type} {p : α → Bool} {l₁ l₂ : List α}
    (h : l₁.find? p = none) : (l₁ ++ l₂).eraseP p = l₁ ++ l₂.eraseP p := by
  induction l₁ with
  | nil => simp
  | cons a l ih =>
      rw [List.find?_cons] at h
      cases hp : p a with
      | true => simp [hp] at h
      | false =>
          simp only [hp] at h
          simp only [List.cons_append, List.eraseP_cons, hp, cond_false, ih h]

theorem key_not_mem_eraseP {l : List (Entry K V)} {k : K}
    (h : (l.map (·.key)).Nodup) :
    k ∉ ((l.eraseP (fun e => e.hasKey k)).map (·.key)) := by
  induction l with
  | nil => simp
  | cons e l ih =>
      simp only [List.map_cons, List.nodup_cons] at h
      by_cases hk : e.key = k
      · rw [List.eraseP_cons_of_pos (by simp [Entry.hasKey, hk])]
        rw [hk] at h
        exact h.1
      · rw [List.eraseP_cons_of_neg (by simp [Entry.hasKey, hk])]
        simp only [List.map_cons, List.mem_cons, not_or]
        exact ⟨fun hkk => hk hkk.symm, ih h.2⟩

theorem nodup_map_key_eraseP {l : List (Entry K V)} {p : Entry K V → Bool}
    (h : (l.map (·.key)).Nodup) :
    ((l.eraseP p).map (·.key)).Nodup :=
  List.Nodup.sublist (List.Sublist.map _ (List.eraseP_sublist _)) h

theorem nodup_cons_eraseP {l : List (Entry K V)} {k : K} {v : V} {ts : Int}
    (h : (l.map (·.key)).Nodup) :
    (((⟨k, v, ts⟩ : Entry K V) :: l.eraseP (fun e => e.hasKey k)).map
      (·.key)).Nodup := by
  simp only [List.map_cons, List.nodup_cons]
  exact ⟨key_not_mem_eraseP h, nodup_map_key_eraseP h⟩

theorem length_eraseP_of_find? {l : List (Entry K V)} {p : Entry K V → Bool}
    {e : Entry K V} (h : l.find? p = some e) :
    (l.eraseP p).length + 1 = l.length :=
  List.length_eraseP_add_one (List.mem_of_find?_eq_some h) (List.find?_some h)

theorem eraseP_of_find?_none {l : List (Entry K V)} {p : Entry K V → Bool}
    (h : l.find? p = none) : l.eraseP p = l :=
  List.eraseP_of_forall_not (by simpa [List.find?_eq_none] using h)

theorem key_not_mem_of_find?_none {l : List (Entry K V)} {k : K}
    (hf : l.find? (fun e => e.hasKey k) = none) :
    k ∉ l.map (·.key) := by
  rw [List.find?_eq_none] at hf
  simp only [List.mem_map, not_exists, not_and]
  intro e he hke
  have := hf e he
  simp [Entry.hasKey, hke] at this

/-! ### Branch characterizations of the operations -/

theorem getTimestamp_sets_update (c : Cache K V) (x now r : Int) :
    ({ c with sets := x } : Cache K V).getTimestamp now r =
      c.getTimestamp now r := rfl

/-- `Set` on an existing key: overwrite in place, refresh the timestamp,
move to front, no eviction, return `false`. -/
theorem Set_found {c : Cache K V} {k : K} {e : Entry K V} (v : V) (now r : Int)
    (hf : c.entries.find? (fun x => x.hasKey k) = some e) :
    c.Set k v now r =
      ({ c with
          sets := c.sets + 1
          entries := ⟨k, v, c.getTimestamp now r⟩ ::
            c.entries.eraseP (fun x => x.hasKey k) },
       false, []) := by
  unfold Cache.Set
  simp only [hf]
  rfl

/-- `Set` on an absent key with room: insert at the front, return `false`. -/
theorem Set_absent_fit {c : Cache K V} {k : K} (v : V) (now r : Int)
    (hf : c.entries.find? (fun x => x.hasKey k) = none)
    (hcap : (c.entries.length : Int) + 1 ≤ c.capacity) :
    c.Set k v now r =
      ({ c with
          sets := c.sets + 1
          entries := ⟨k, v, c.getTimestamp now r⟩ :: c.entries },
       false, []) := by
  unfold Cache.Set
  simp only [hf, getTimestamp_sets_update]
  have : ¬ (((⟨k, v, c.getTimestamp now r⟩ :: c.entries).length : Int) > c.capacity) := by
    simp only [List.length_cons]
    push_cast
    omega
  simp only [this, if_neg, not_false_iff]

/-- `Set` on an absent key at capacity: insert at the front, evict the back
element, bump `evictions`, emit the eviction callback, return `true`. -/
theorem Set_absent_evict {c : Cache K V} {k : K} (v : V) (now r : Int)
    (hf : c.entries.find? (fun x => x.hasKey k) = none)
    (hcap : (c.entries.length : Int) + 1 > c.capacity) :
    c.Set k v now r =
      (let newEntries : List (Entry K V) :=
        ⟨k, v, c.getTimestamp now r⟩ :: c.entries
      let last := newEntries.getLast (by simp [newEntries])
      ({ c with
          sets := c.sets + 1
          evictions := c.evictions + 1
          entries := newEntries.dropLast },
       true,
       if c.onEvictionSet then [.evict last.key last.value] else [])) := by
  unfold Cache.Set
  simp only [hf, getTimestamp_sets_update]
  have hgt : (((⟨k, v, c.getTimestamp now r⟩ :: c.entries).length : Int) > c.capacity) := by
    simp only [List.length_cons]
    push_cast
    omega
  simp only [hgt, if_pos]
  unfold Cache.evictOldest
  rw [List.getLast?_eq_getLast _ (by simp)]

/-- `Get` on a present, fresh key: move to front, bump `hits`, return the
stored value untouched. -/
theorem Get_found_fresh {c : Cache K V} {k : K} {e : Entry K V} (now : Int)
    (hf : c.entries.find? (fun x => x.hasKey k) = some e)
    (hfresh : c.isFresh e now = true) :
    c.Get k now =
      ({ c with
          gets := c.gets + 1
          hits := c.hits + 1
          entries := e :: c.entries.eraseP (fun x => x.hasKey k) },
       some e.value, []) := by
  unfold Cache.Get
  simp only [hf]
  have : ({ c with gets := c.gets + 1 } : Cache K V).isFresh e now = true := hfresh
  simp only [this, if_pos]

/-- `Get` on a present, stale key: delete the entry, bump `misses` (not
`evictions`), emit the expiration callback, return not-found. -/
theorem Get_found_stale {c : Cache K V} {k : K} {e : Entry K V} (now : Int)
    (hf : c.entries.find? (fun x => x.hasKey k) = some e)
    (hfresh : c.isFresh e now = false) :
    c.Get k now =
      ({ c with
          gets := c.gets + 1
          misses := c.misses + 1
          entries := c.entries.eraseP (fun x => x.hasKey e.key) },
       none,
       if c.onExpirationSet then [.expire e.key e.value] else []) := by
  unfold Cache.Get
  simp only [hf]
  have : ({ c with gets := c.gets + 1 } : Cache K V).isFresh e now = false := hfresh
  simp only [this, Bool.false_eq_true, if_neg, not_false_iff]
  rfl

/-- `Get` on an absent key: bump `misses`, return not-found. -/
theorem Get_absent {c : Cache K V} {k : K} (now : Int)
    (hf : c.entries.find? (fun x => x.hasKey k) = none) :
    c.Get k now =
      ({ c with
          gets := c.gets + 1
          misses := c.misses + 1 }, none, []) := by
  unfold Cache.Get
  simp only [hf]

/-! ### Invariant preservation -/

theorem Inv_Set (c : Cache K V) (k : K) (v : V) (now r : Int) (h : Inv c) :
    Inv (c.Set k v now r).1 := by
  obtain ⟨hc, hnd, hlen⟩ := h
  cases hf : c.entries.find? (fun e => e.hasKey k) with
  | some e =>
      rw [Set_found v now r hf]
      refine ⟨hc, nodup_cons_eraseP hnd, ?_⟩
      simp only [List.length_cons, length_eraseP_of_find? hf]
      exact hlen
  | none =>
      have hknew : k ∉ c.entries.map (·.key) := key_not_mem_of_find?_none hf
      by_cases hcap : (c.entries.length : Int) + 1 ≤ c.capacity
      · rw [Set_absent_fit v now r hf hcap]
        refine ⟨hc, List.Nodup.cons (by simpa using hknew) hnd, ?_⟩
        simpa [add_comm] using hcap
      · rw [Set_absent_evict v now r hf (lt_of_not_ge hcap)]
        refine ⟨hc, ?_, ?_⟩
        · refine List.Nodup.sublist (List.Sublist.map _ (List.dropLast_sublist _)) ?_
          exact List.Nodup.cons (by simpa using hknew) hnd
        · simp only [List.length_dropLast, List.length_cons]
          simpa using hlen

theorem Inv_Get (c : Cache K V) (k : K) (now : Int) (h : Inv c) :
    Inv (c.Get k now).1 := by
  obtain ⟨hc, hnd, hlen⟩ := h
  cases hf : c.entries.find? (fun e => e.hasKey k) with
  | some e =>
      cases hfresh : c.isFresh e now with
      | true =>
          rw [Get_found_fresh now hf hfresh]
          have hek : e.key = k := by
            have := List.find?_some hf
            simpa [Entry.hasKey] using this
          refine ⟨hc, ?_, ?_⟩
          · show ((e :: c.entries.eraseP fun x => x.hasKey k).map (·.key)).Nodup
            have :
                (((⟨k, e.value, e.timestamp⟩ : Entry K V) ::
                  c.entries.eraseP (fun x => x.hasKey k)).map (·.key)).Nodup :=
              nodup_cons_eraseP hnd
            simp only [List.map_cons] at this ⊢
            rw [hek]
            exact this
          · simp only [List.length_cons, length_eraseP_of_find? hf]
            exact hlen
      | false =>
          rw [Get_found_stale now hf hfresh]
          refine ⟨hc, nodup_map_key_eraseP hnd, ?_⟩
          calc ((c.entries.eraseP (fun x => x.hasKey e.key)).length : Int)
              ≤ (c.entries.length : Int) := by
                exact_mod_cast List.Sublist.length_le (List.eraseP_sublist _)
            _ ≤ c.capacity := hlen
  | none =>
      rw [Get_absent now hf]
      exact ⟨hc, hnd, hlen⟩

/-- Any state whose entries form a sublist of an invariant state's entries,
with the same capacity, satisfies the invariant. -/
theorem Inv_of_sublist {c c' : Cache K V} (hcap : c'.capacity = c.capacity)
    (hsub : List.Sublist c'.entries c.entries) (h : Inv c) : Inv c' := by
  obtain ⟨hc, hnd, hlen⟩ := h
  refine ⟨hcap ▸ hc, List.Nodup.sublist (List.Sublist.map _ hsub) hnd, ?_⟩
  rw [hcap]
  calc (c'.entries.length : Int) ≤ (c.entries.length : Int) := by
        exact_mod_cast List.Sublist.length_le hsub
    _ ≤ c.capacity := hlen

theorem Inv_Remove (c : Cache K V) (k : K) (h : Inv c) :
    Inv (c.Remove k).1 := by
  unfold Cache.Remove
  cases hf : c.entries.find? (fun e => e.hasKey k) with
  | some e =>
      show Inv (c.deleteElement e)
      exact Inv_of_sublist (c := c) rfl (List.eraseP_sublist _) h
  | none => exact h

theorem Inv_EvictOldest (c : Cache K V) (h : Inv c) :
    Inv c.EvictOldest.1 := by
  unfold Cache.EvictOldest Cache.evictOldest
  cases hl : c.entries.getLast? with
  | none => exact h
  | some e =>
      show Inv { c with
        evictions := c.evictions + 1, entries := c.entries.dropLast }
      exact Inv_of_sublist (c := c) rfl (List.dropLast_sublist _) h

theorem Inv_Clear (c : Cache K V) (h : Inv c) : Inv c.Clear.1 := by
  show Inv ({ c with entries := [] })
  exact Inv_of_sublist (c := c) rfl (List.nil_sublist _) h

theorem Inv_SetMaxAge (c : Cache K V) (d : Int) (h : Inv c) :
    Inv (c.SetMaxAge d).1 := by
  unfold Cache.SetMaxAge
  split
  · exact h
  · split
    · exact h
    · exact Inv_of_sublist rfl (List.Sublist.refl _) h

theorem Inv_SetMinAge (c : Cache K V) (d : Int) (h : Inv c) :
    Inv (c.SetMinAge d).1 := by
  unfold Cache.SetMinAge
  split
  · exact h
  · split
    · exact h
    · split
      · exact Inv_of_sublist rfl (List.Sublist.refl _) h
      · exact Inv_of_sublist rfl (List.Sublist.refl _) h

theorem Inv_deleteExpiredStep (c : Cache K V) (now : Int) (k : K) (h : Inv c) :
    Inv (c.deleteExpiredStep now k).1 := by
  unfold Cache.deleteExpiredStep
  cases hf : c.entries.find? (fun e => e.hasKey k) with
  | some e =>
      by_cases hexp : c.expiredAt e now = true
      · simp only [hexp, if_pos]
        show Inv (c.deleteElement e)
        exact Inv_of_sublist (c := c) rfl (List.eraseP_sublist _) h
      · simp only [hexp, if_neg, not_false_iff]
        exact h
  | none => exact h

theorem Inv_deleteExpiredLoop (now : Int) (ks : List K) :
    ∀ c : Cache K V, Inv c → Inv (deleteExpiredLoop now c ks).1 := by
  induction ks with
  | nil => intro c h; exact h
  | cons k ks ih =>
      intro c h
      exact ih _ (Inv_deleteExpiredStep c now k h)

theorem Inv_deleteExpired (c : Cache K V) (now : Int) (h : Inv c) :
    Inv (c.deleteExpired now).1 :=
  Inv_deleteExpiredLoop now c.Keys c h

/-! ### Characterization of one reaper sweep -/

theorem expiredAt_entries_update (c : Cache K V) (l : List (Entry K V))
    (e : Entry K V) (now : Int) :
    ({ c with entries := l } : Cache K V).expiredAt e now = c.expiredAt e now :=
  rfl

theorem find?_key_none_of_not_mem {pre : List (Entry K V)} {k : K}
    (h : k ∉ pre.map (·.key)) :
    pre.find? (fun x => x.hasKey k) = none := by
  rw [List.find?_eq_none]
  intro x hx
  simp only [Entry.hasKey, decide_eq_true_eq]
  intro hk
  exact h (List.mem_map.mpr ⟨x, hx, hk⟩)

theorem deleteExpiredLoop_spec (c0 : Cache K V) (now : Int) :
    ∀ (rest pre : List (Entry K V)),
    ((pre ++ rest).map (·.key)).Nodup →
    deleteExpiredLoop now ({ c0 with entries := pre ++ rest }) (rest.map (·.key)) =
      ({ c0 with entries := pre ++ rest.filter (fun e => ! c0.expiredAt e now) },
       if c0.onExpirationSet then
         (rest.filter (fun e => c0.expiredAt e now)).map
           (fun e => Event.expire e.key e.value)
       else []) := by
  intro rest
  induction rest with
  | nil =>
      intro pre hnd
      simp [deleteExpiredLoop]
  | cons e rest ih =>
      intro pre hnd
      have hkey : e.key ∉ pre.map (·.key) := by
        rw [List.map_append, List.nodup_append] at hnd
        intro hmem
        exact hnd.2.2 hmem (by simp)
      have hpre : pre.find? (fun x => x.hasKey e.key) = none :=
        find?_key_none_of_not_mem hkey
      have hfind :
          (pre ++ e :: rest).find? (fun x => x.hasKey e.key) = some e := by
        rw [find?_append_of_none hpre]
        rw [List.find?_cons_of_pos _ (by simp [Entry.hasKey])]
      simp only [List.map_cons, deleteExpiredLoop, Cache.deleteExpiredStep]
      simp only [hfind, expiredAt_entries_update]
      by_cases hexp : c0.expiredAt e now = true
      · simp only [hexp, if_pos]
        have herase :
            (pre ++ e :: rest).eraseP (fun x => x.hasKey e.key) = pre ++ rest := by
          rw [eraseP_append_of_none hpre,
            List.eraseP_cons_of_pos (by simp [Entry.hasKey])]
        have hnd' : ((pre ++ rest).map (·.key)).Nodup := by
          refine List.Nodup.sublist (List.Sublist.map _ ?_) hnd
          exact List.Sublist.append_left (List.sublist_cons_self e rest) pre
        simp only [Cache.deleteElement, herase]
        rw [ih pre hnd']
        by_cases hset : c0.onExpirationSet
        · simp [hset, hexp, List.filter_cons]
        · simp [hset, hexp, List.filter_cons]
      · have hexp' : c0.expiredAt e now = false := by
          cases hb : c0.expiredAt e now with
          | true => exact absurd hb hexp
          | false => rfl
        simp only [hexp', Bool.false_eq_true, if_neg, not_false_iff]
        have hnd' : (((pre ++ [e]) ++ rest).map (·.key)).Nodup := by
          simpa using hnd
        have := ih (pre ++ [e]) hnd'
        simp only [List.append_assoc, List.singleton_append] at this
        rw [this]
        simp [List.filter_cons, hexp']

/-- One sweep of `deleteExpired`, on a store whose keys are unique (the
reachable-state invariant): stale entries are removed and reported in
recency order, fresh entries keep their relative order, and no other field
of the cache changes. -/
theorem deleteExpired_spec (c : Cache K V) (now : Int) (h : keysNodup c) :
    c.deleteExpired now =
      ({ c with entries := c.entries.filter (fun e => ! c.expiredAt e now) },
       if c.onExpirationSet then
         (c.entries.filter (fun e => c.expiredAt e now)).map
           (fun e => Event.expire e.key e.value)
       else []) := by
  have := deleteExpiredLoop_spec c now c.entries [] (by simpa [keysNodup] using h)
  simpa [Cache.deleteExpired, Cache.Keys] using this

theorem Inv_OnEviction (c : Cache K V) (b : Bool) (h : Inv c) :
    Inv (c.OnEviction b) :=
  Inv_of_sublist rfl (List.Sublist.refl _) h

theorem Inv_OnExpiration (c : Cache K V) (b : Bool) (h : Inv c) :
    Inv (c.OnExpiration b) :=
  Inv_of_sublist rfl (List.Sublist.refl _) h

theorem Inv_applyOp (c : Cache K V) (op : Op K V) (h : Inv c) :
    Inv (applyOp c op) := by
  cases op with
  | set k v now r => exact Inv_Set c k v now r h
  | get k now => exact Inv_Get c k now h
  | remove k => exact Inv_Remove c k h
  | evictOldest => exact Inv_EvictOldest c h
  | clear => exact Inv_Clear c h
  | setMaxAge d => exact Inv_SetMaxAge c d h
  | setMinAge d => exact Inv_SetMinAge c d h
  | onEviction b => exact Inv_OnEviction c b h
  | onExpiration b => exact Inv_OnExpiration c b h
  | deleteExpired now => exact Inv_deleteExpired c now h

theorem Inv_run (c : Cache K V) (ops : List (Op K V)) (h : Inv c) :
    Inv (run c ops) := by
  induction ops generalizing c with
  | nil => exact h
  | cons op ops ih => exact ih _ (Inv_applyOp c op h)

theorem Inv_New {config : Config} {c : Cache K V}
    (h : New K V config = some c) : Inv c := by
  unfold New at h
  by_cases h1 : config.capacity ≤ 0
  · simp [h1] at h
  · by_cases h2 : config.maxAge < 0
    · simp [h1, h2] at h
    · by_cases h3 : config.minAge < 0
      · simp [h1, h2, h3] at h
      · by_cases h4 : config.minAge > 0 ∧ config.minAge > config.maxAge
        · simp [h1, h2, h3, h4] at h
        · simp only [h1, h2, h3, h4, if_neg, not_false_iff, Option.some.injEq] at h
          subst h
          refine ⟨?_, List.nodup_nil, ?_⟩
          · show (0 : Int) < config.capacity
            omega
          · show ((([] : List (Entry K V)).length : Int)) ≤ config.capacity
            simp only [List.length_nil, Nat.cast_zero]
            omega

/-! ### Concrete fixtures for witnesses -/

/-- A concrete configuration: capacity 2, TTL 10ns, passive expiration. -/
def testConfig : Config :=
  { capacity := 2
    maxAge := 10
    minAge := 0
    expirationType := .passive
    expirationInterval := 0
    onEvictionSet := true
    onExpirationSet := true }

/-- The cache `New` builds from `testConfig`. -/
def testNewCache : Cache Nat Nat :=
  { capacity := 2
    minAge := 10
    maxAge := 10
    expirationType := .passive
    expirationInterval := 10
    onEvictionSet := true
    onExpirationSet := true
    sets := 0, gets := 0, hits := 0, misses := 0, evictions := 0
    entries := [] }

/-- A two-entry cache state (keys 1 and 2, both written at instant 0). -/
def testCache : Cache Nat Nat :=
  { testNewCache with entries := [⟨1, 11, 0⟩, ⟨2, 22, 0⟩] }

/-- A cache with jitter enabled: `0 < minAge = 5 < maxAge = 10`. -/
def testJitterCache : Cache Nat Nat :=
  { testNewCache with minAge := 5, maxAge := 10 }

/-- A short operation sequence from the freshly constructed cache. -/
def testOps : List (Op Nat Nat) :=
  [.set 1 10 0 0, .set 2 20 1 0, .set 3 30 2 0, .get 2 3, .remove 3,
   .deleteExpired 20, .set 4 40 21 0]

/-! ### The claims -/

/-- C1: `Set(key, value)` — if the key exists, the value is overwritten,
the timestamp is refreshed via the jittered-timestamp computation, the
entry moves to most-recently-used, nothing is evicted and `false` is
returned; if the key is absent the entry is inserted most-recently-used
and, exactly when the resulting size exceeds capacity, the
least-recently-used entry is removed (bumping `evictions` and invoking
`onEviction`) and `true` is returned; `sets` grows by one in every
branch. -/
theorem claim_C1_set_contract (c : Cache K V) (k : K) (v : V) (now r : Int) :
    (c.Set k v now r).1.sets = c.sets + 1 ∧
    (∀ e, c.entries.find? (fun x => x.hasKey k) = some e →
      c.Set k v now r =
        ({ c with
            sets := c.sets + 1
            entries := ⟨k, v, c.getTimestamp now r⟩ ::
              c.entries.eraseP (fun x => x.hasKey k) },
         false, [])) ∧
    (c.entries.find? (fun x => x.hasKey k) = none →
      (((c.entries.length : Int) + 1 ≤ c.capacity →
        c.Set k v now r =
          ({ c with
              sets := c.sets + 1
              entries := ⟨k, v, c.getTimestamp now r⟩ :: c.entries },
           false, [])) ∧
      ((c.entries.length : Int) + 1 > c.capacity →
        c.Set k v now r =
          (let newEntries : List (Entry K V) :=
            ⟨k, v, c.getTimestamp now r⟩ :: c.entries
          let last := newEntries.getLast (by simp [newEntries])
          ({ c with
              sets := c.sets + 1
              evictions := c.evictions + 1
              entries := newEntries.dropLast },
           true,
           if c.onEvictionSet then [.evict last.key last.value] else []))))) := by
  refine ⟨?_, ?_, ?_⟩
  · cases hf : c.entries.find? (fun x => x.hasKey k) with
    | some e => rw [Set_found v now r hf]
    | none =>
        by_cases hcap : (c.entries.length : Int) + 1 ≤ c.capacity
        · rw [Set_absent_fit v now r hf hcap]
        · rw [Set_absent_evict v now r hf (lt_of_not_ge hcap)]
  · intro e hf
    exact Set_found v now r hf
  · intro hf
    exact ⟨fun hcap => Set_absent_fit v now r hf hcap,
           fun hcap => Set_absent_evict v now r hf hcap⟩

theorem claim_C1_witness :
    testCache.Set 1 99 5 0 =
      ({ testCache with
          sets := testCache.sets + 1
          entries := ⟨1, 99, testCache.getTimestamp 5 0⟩ ::
            testCache.entries.eraseP (fun x => x.hasKey 1) },
       false, []) :=
  (claim_C1_set_contract testCache 1 99 5 0).2.1 ⟨1, 11, 0⟩ (by decide)

/-- C2: `Get(key)` — one `gets` increment always; absent key bumps
`misses` and returns not-found; present fresh key moves to
most-recently-used, bumps `hits` and returns the stored value; present
stale key is deleted, `onExpiration` is invoked when set, `misses` (not
`evictions`) is bumped, and not-found is returned. -/
theorem claim_C2_get_contract (c : Cache K V) (k : K) (now : Int) :
    (c.Get k now).1.gets = c.gets + 1 ∧
    (c.entries.find? (fun x => x.hasKey k) = none →
      c.Get k now =
        ({ c with
            gets := c.gets + 1
            misses := c.misses + 1 }, none, [])) ∧
    (∀ e, c.entries.find? (fun x => x.hasKey k) = some e →
      c.isFresh e now = true →
      c.Get k now =
        ({ c with
            gets := c.gets + 1
            hits := c.hits + 1
            entries := e :: c.entries.eraseP (fun x => x.hasKey k) },
         some e.value, [])) ∧
    (∀ e, c.entries.find? (fun x => x.hasKey k) = some e →
      c.isFresh e now = false →
      c.Get k now =
        ({ c with
            gets := c.gets + 1
            misses := c.misses + 1
            entries := c.entries.eraseP (fun x => x.hasKey e.key) },
         none,
         if c.onExpirationSet then [.expire e.key e.value] else [])) := by
  refine ⟨?_, ?_, ?_, ?_⟩
  · cases hf : c.entries.find? (fun x => x.hasKey k) with
    | some e =>
        cases hfresh : c.isFresh e now with
        | true => rw [Get_found_fresh now hf hfresh]
        | false => rw [Get_found_stale now hf hfresh]
    | none => rw [Get_absent now hf]
  · intro hf
    exact Get_absent now hf
  · intro e hf hfresh
    exact Get_found_fresh now hf hfresh
  · intro e hf hfresh
    exact Get_found_stale now hf hfresh

theorem claim_C2_witness :
    testCache.Get 2 5 =
      ({ testCache with
          gets := testCache.gets + 1
          hits := testCache.hits + 1
          entries := ⟨2, 22, 0⟩ ::
            testCache.entries.eraseP (fun x => x.hasKey 2) },
       some 22, []) :=
  (claim_C2_get_contract testCache 2 5).2.2.1 ⟨2, 22, 0⟩ (by decide) (by decide)

/-- C3: starting from any successfully constructed cache, after any
sequence of public operations the number of keys in the index equals the
length of the recency order (key-uniqueness: each key has exactly one live
position), and both are at most the capacity. -/
theorem claim_C3_invariant (config : Config) (c₀ : Cache K V)
    (ops : List (Op K V)) (h : New K V config = some c₀) :
    ((run c₀ ops).entries.map (·.key)).dedup.length =
        (run c₀ ops).entries.length ∧
    ((run c₀ ops).entries.length : Int) ≤ (run c₀ ops).capacity ∧
    ((run c₀ ops).entries.map (·.key)).Nodup := by
  obtain ⟨hc, hnd, hlen⟩ := Inv_run c₀ ops (Inv_New h)
  refine ⟨?_, hlen, hnd⟩
  rw [List.dedup_eq_self.mpr hnd, List.length_map]

theorem claim_C3_witness :
    ((run testNewCache testOps).entries.map (·.key)).dedup.length =
        (run testNewCache testOps).entries.length ∧
    ((run testNewCache testOps).entries.length : Int) ≤
        (run testNewCache testOps).capacity ∧
    ((run testNewCache testOps).entries.map (·.key)).Nodup :=
  claim_C3_invariant testConfig testNewCache testOps (by decide)

/-- C4: `Has` is true exactly on a present-and-fresh key, `Peek` returns
the stored value exactly on a present-and-fresh key and not-found on a
stale one.  The Go code for both takes only the read lock and performs no
write, so the embedding is a pure function of the state: non-mutation of
recency, entries and statistics, absence of deletion and of callbacks are
expressed by the function type itself. -/
theorem claim_C4_has_peek (c : Cache K V) (k : K) (now : Int) :
    (c.Has k now = true ↔
      ∃ e, c.entries.find? (fun x => x.hasKey k) = some e ∧
        c.isFresh e now = true) ∧
    (∀ v, c.Peek k now = some v ↔
      ∃ e, c.entries.find? (fun x => x.hasKey k) = some e ∧
        c.isFresh e now = true ∧ e.value = v) ∧
    ((c.Peek k now).isSome = c.Has k now) := by
  unfold Cache.Has Cache.Peek
  cases hf : c.entries.find? (fun x => x.hasKey k) with
  | some e =>
      cases hfresh : c.isFresh e now with
      | true => simp [hfresh]
      | false => simp [hfresh]
  | none => simp

theorem claim_C4_witness :
    testCache.Has 1 5 = true ∧ testCache.Peek 1 5 = some 11 := by
  constructor
  · exact (claim_C4_has_peek testCache 1 5).1.mpr ⟨⟨1, 11, 0⟩, by decide, by decide⟩
  · exact ((claim_C4_has_peek testCache 1 5).2.1 11).mpr
      ⟨⟨1, 11, 0⟩, by decide, by decide, rfl⟩

/-- C5 as stated is false: with `capacity = 1`, `maxAge = 0`, `minAge = 1`
the claim predicts successful construction, but `New` panics — the guard
is `minAge > 0 && minAge > maxAge`, which fires when `maxAge` is zero and
`minAge` positive. -/
theorem claim_C5_counterexample :
    New Nat Nat
      { capacity := 1
        maxAge := 0
        minAge := 1
        expirationType := .passive
        expirationInterval := 0
        onEvictionSet := false
        onExpirationSet := false } = none := by decide

/-- C5 (amended): construction fails exactly when `capacity ≤ 0`, or
`maxAge < 0`, or `minAge < 0`, or `minAge > 0 ∧ minAge > maxAge` (so in
particular any positive `minAge` with `maxAge = 0` is fatal); every other
configuration yields a cache. -/
theorem claim_C5_new_validation (config : Config) :
    New K V config = none ↔
      (config.capacity ≤ 0 ∨ config.maxAge < 0 ∨ config.minAge < 0 ∨
        (config.minAge > 0 ∧ config.minAge > config.maxAge)) := by
  unfold New
  split_ifs with h1 h2 h3 h4 <;> simp <;> omega

/-- C6: `Remove` and `Clear` never invoke `onEviction` or `onExpiration`;
`Clear` empties the store, keeps every historical counter, and only the
`count` gauge drops to zero. -/
theorem claim_C6_remove_clear_silent (c : Cache K V) (k : K) :
    (c.Remove k).2.2 = [] ∧
    c.Clear.2 = [] ∧
    c.Clear.1.entries = [] ∧
    c.Clear.1.Stats =
      { capacity := c.capacity
        count := 0
        sets := c.sets
        gets := c.gets
        hits := c.hits
        misses := c.misses
        evictions := c.evictions } := by
    refine ⟨?_, rfl, rfl, rfl⟩
    unfold Cache.Remove
    cases hf : c.entries.find? (fun x => x.hasKey k) with
    | some e => rfl
    | none => rfl

theorem claim_C6_witness :
    (testCache.Remove 1).2.2 = [] ∧
    testCache.Clear.2 = [] ∧
    testCache.Clear.1.entries = [] ∧
    testCache.Clear.1.Stats =
      { capacity := testCache.capacity
        count := 0
        sets := testCache.sets
        gets := testCache.gets
        hits := testCache.hits
        misses := testCache.misses
        evictions := testCache.evictions } :=
  claim_C6_remove_clear_silent testCache 1

/-- A cache state for the reaper witness: at instant 60 with TTL 10, the
entry written at 55 is fresh and the entry written at 0 is stale. -/
def testSweepCache : Cache Nat Nat :=
  { testNewCache with entries := [⟨1, 11, 55⟩, ⟨2, 22, 0⟩] }

/-- C7: with `0 < minAge < maxAge` the recorded timestamp is the creation
instant advanced by the generator's draw `r`, and under the `Intn`
contract `0 ≤ r < maxAge - minAge` it lies in
`[now, now + (maxAge - minAge))`; with `minAge = maxAge` (which `New`
establishes whenever `config.minAge` is unset) no jitter is added; a fresh
`Get` returns the entry with its stored timestamp, never recomputing it.
Uniformity of the draw is a property of Go's `math/rand` source, outside
the embedding. -/
theorem claim_C7_jitter (c : Cache K V) (now r : Int) :
    (0 < c.minAge → c.minAge < c.maxAge → c.getTimestamp now r = now + r) ∧
    (0 ≤ r → r < c.maxAge - c.minAge →
      now ≤ c.getTimestamp now r ∧
      c.getTimestamp now r < now + (c.maxAge - c.minAge)) ∧
    (c.minAge = c.maxAge → c.getTimestamp now r = now) ∧
    (∀ config : Config, config.minAge = 0 →
      ∀ c₀ : Cache K V, New K V config = some c₀ → c₀.minAge = c₀.maxAge) ∧
    (∀ k (e : Entry K V), c.entries.find? (fun x => x.hasKey k) = some e →
      c.isFresh e now = true →
      (c.Get k now).1.entries.head? = some e) := by
  refine ⟨?_, ?_, ?_, ?_, ?_⟩
  · intro hpos hlt
    unfold Cache.getTimestamp
    rw [if_neg (ne_of_lt hlt)]
  · intro hr0 hrlt
    unfold Cache.getTimestamp
    split_ifs with heq
    · constructor
      · exact le_refl now
      · omega
    · constructor
      · omega
      · omega
  · intro heq
    unfold Cache.getTimestamp
    rw [if_pos heq]
  · intro config hmin c₀ hnew
    unfold New at hnew
    split_ifs at hnew <;>
      first
        | exact Option.noConfusion hnew
        | (simp only [Option.some.injEq] at hnew; subst hnew; rfl)
  · intro k e hf hfresh
    rw [Get_found_fresh now hf hfresh]
    rfl

theorem claim_C7_witness :
    testJitterCache.getTimestamp 100 3 = 100 + 3 :=
  (claim_C7_jitter testJitterCache 100 3).1 (by decide) (by decide)

/-- C8: `SetMaxAge` and `SetMinAge` reject exactly the reconfigurations
that would break the construction constraints (negative values, or a bound
crossing the other one), returning an error and leaving the whole cache
unchanged; on success only the corresponding bound is replaced, and
`SetMinAge 0` restores the default `minAge = maxAge`. -/
theorem claim_C8_runtime_reconfig (c : Cache K V) (d : Int) :
    ((c.SetMaxAge d).2.isSome ↔ d < 0 ∨ d < c.minAge) ∧
    ((c.SetMaxAge d).2.isSome → (c.SetMaxAge d).1 = c) ∧
    (¬(d < 0 ∨ d < c.minAge) → c.SetMaxAge d = ({ c with maxAge := d }, none)) ∧
    ((c.SetMinAge d).2.isSome ↔ d < 0 ∨ d > c.maxAge) ∧
    ((c.SetMinAge d).2.isSome → (c.SetMinAge d).1 = c) ∧
    (¬(d < 0 ∨ d > c.maxAge) → d ≠ 0 →
      c.SetMinAge d = ({ c with minAge := d }, none)) ∧
    (0 ≤ c.maxAge → c.SetMinAge 0 = ({ c with minAge := c.maxAge }, none)) := by
  refine ⟨?_, ?_, ?_, ?_, ?_, ?_, ?_⟩
  · unfold Cache.SetMaxAge
    split_ifs with h1 h2 <;> simp <;> omega
  · unfold Cache.SetMaxAge
    split_ifs with h1 h2 <;> simp
  · intro hok
    unfold Cache.SetMaxAge
    split_ifs with h1 h2
    · exact absurd (Or.inl h1) hok
    · exact absurd (Or.inr h2) hok
    · rfl
  · unfold Cache.SetMinAge
    split_ifs with h1 h2 h3 <;> simp <;> omega
  · unfold Cache.SetMinAge
    split_ifs with h1 h2 h3 <;> simp
  · intro hok hne
    unfold Cache.SetMinAge
    split_ifs with h1 h2
    · exact absurd (Or.inl h1) hok
    · exact absurd (Or.inr h2) hok
    · rfl
  · intro hmax
    unfold Cache.SetMinAge
    rw [if_neg (by omega : ¬ (0 : Int) < 0),
      if_neg (by omega : ¬ (0 : Int) > c.maxAge), if_pos rfl]

theorem claim_C8_witness :
    testCache.SetMaxAge 12 = ({ testCache with maxAge := 12 }, none) ∧
    testCache.SetMinAge (-1) = (testCache, (testCache.SetMinAge (-1)).2) ∧
    (testCache.SetMinAge (-1)).2.isSome = true := by
  refine ⟨?_, ?_, ?_⟩
  · exact (claim_C8_runtime_reconfig testCache 12).2.2.1 (by decide)
  · have h := (claim_C8_runtime_reconfig testCache (-1)).2.2.2.2.1
      ((claim_C8_runtime_reconfig testCache (-1)).2.2.2.1.mpr (by decide))
    exact Prod.ext h rfl
  · exact ((claim_C8_runtime_reconfig testCache (-1)).2.2.2.1.mpr
      (by decide)).symm ▸ rfl

/-- C9: one sweep of the active reaper walks a snapshot of the current
keys and removes exactly the entries stale at check time
(`maxAge > 0` and age exceeding `maxAge`), invoking `onExpiration` (when
set) for each; fresh entries keep their positions in recency order, and no
statistics counter changes.  Key-uniqueness (`keysNodup`) is the
reachable-state invariant proved for C3. -/
theorem claim_C9_reaper_sweep (c : Cache K V) (now : Int) (h : keysNodup c) :
    (c.deleteExpired now).1.entries =
      c.entries.filter (fun e => ! c.expiredAt e now) ∧
    (c.deleteExpired now).2 =
      (if c.onExpirationSet then
        (c.entries.filter (fun e => c.expiredAt e now)).map
          (fun e => Event.expire e.key e.value)
      else []) ∧
    (c.deleteExpired now).1.gets = c.gets ∧
    (c.deleteExpired now).1.hits = c.hits ∧
    (c.deleteExpired now).1.misses = c.misses ∧
    (c.deleteExpired now).1.sets = c.sets ∧
    (c.deleteExpired now).1.evictions = c.evictions := by
  rw [deleteExpired_spec c now h]
  exact ⟨rfl, rfl, rfl, rfl, rfl, rfl, rfl⟩

theorem claim_C9_witness :
    (testSweepCache.deleteExpired 60).1.entries =
      testSweepCache.entries.filter
        (fun e => ! testSweepCache.expiredAt e 60) ∧
    (testSweepCache.deleteExpired 60).2 =
      (if testSweepCache.onExpirationSet then
        (testSweepCache.entries.filter
          (fun e => testSweepCache.expiredAt e 60)).map
          (fun e => Event.expire e.key e.value)
      else []) ∧
    (testSweepCache.deleteExpired 60).1.gets = testSweepCache.gets ∧
    (testSweepCache.deleteExpired 60).1.hits = testSweepCache.hits ∧
    (testSweepCache.deleteExpired 60).1.misses = testSweepCache.misses ∧
    (testSweepCache.deleteExpired 60).1.sets = testSweepCache.sets ∧
    (testSweepCache.deleteExpired 60).1.evictions = testSweepCache.evictions :=
  claim_C9_reaper_sweep testSweepCache 60 (by unfold keysNodup; decide)

/-- C10: a hit returns the entry unchanged — same value, same stored
timestamp — merely moving it to the front; its freshness at any later
instant is judged from the same timestamp; only `Set` writes a refreshed
timestamp (at the front, via the jittered-timestamp computation). -/
theorem claim_C10_get_keeps_timestamp (c : Cache K V) (k : K)
    (e : Entry K V) (now : Int)
    (hf : c.entries.find? (fun x => x.hasKey k) = some e)
    (hfresh : c.isFresh e now = true) :
    (c.Get k now).1.entries.head? = some e ∧
    (c.Get k now).1.entries.find? (fun x => x.hasKey k) = some e ∧
    (∀ now₂, ((c.Get k now).1).isFresh e now₂ = c.isFresh e now₂) ∧
    (∀ v r, (c.Set k v now r).1.entries.head? =
      some ⟨k, v, c.getTimestamp now r⟩) := by
  have hek := List.find?_some hf
  refine ⟨?_, ?_, ?_, ?_⟩
  · rw [Get_found_fresh now hf hfresh]
    rfl
  · rw [Get_found_fresh now hf hfresh]
    show (e :: c.entries.eraseP (fun x => x.hasKey k)).find?
      (fun x => x.hasKey k) = some e
    exact List.find?_cons_of_pos _ hek
  · intro now₂
    rw [Get_found_fresh now hf hfresh]
    rfl
  · intro v r
    rw [Set_found v now r hf]
    rfl

theorem claim_C10_witness :
    (testCache.Get 1 5).1.entries.head? = some ⟨1, 11, 0⟩ :=
  (claim_C10_get_keeps_timestamp testCache 1 ⟨1, 11, 0⟩ 5
    (by decide) (by decide)).1

end Agecache
